import Mathlib

/-!
Verification development for the Keras-to-serving tutorial notebook
(`keras_training_to_serving_solution.ipynb`).

The one piece of reproducible logic in the repository is the output
postprocessing step: `postprocess_output` feeds the model's 1D score
vector to the `tf.nn.top_k` selection primitive with `k = TOP_K = 5`
and wraps the result in a dictionary with keys `classes` and
`probabilities`.  Scores are modelled as rationals; a score vector is a
`List ℚ` whose position is the class id.
-/

namespace TfServing

/-- One entry of the score vector: original index paired with its value. -/
abbrev Entry : Type := ℕ × ℚ

/-- Modelled from the spec: the ordering applied by the `tf.nn.top_k`
selection primitive, which is library code outside this repository.
Larger value first; among entries with equal values, the lower original
index first (the spec calls the tie order stable-by-index). -/
def topKRel (a b : Entry) : Prop :=
  b.2 < a.2 ∨ (a.2 = b.2 ∧ a.1 ≤ b.1)

instance (a b : Entry) : Decidable (topKRel a b) :=
  inferInstanceAs (Decidable (b.2 < a.2 ∨ (a.2 = b.2 ∧ a.1 ≤ b.1)))

/-- The score vector paired with original indices, in index order. -/
def enumPairs (xs : List ℚ) : List Entry :=
  (List.range xs.length).zip xs

/-- Modelled from the spec: `tf.nn.top_k values TOP_K` — the entries of
`values` sorted descending by value (stable by index on ties), truncated
to the first `k`, returned as the pair (top values, their indices). -/
def top_k (values : List ℚ) (k : ℕ) : List ℚ × List ℕ :=
  let sorted := List.insertionSort topKRel (enumPairs values)
  ((sorted.take k).map Prod.snd, (sorted.take k).map Prod.fst)

/-- Number of classes/probabilities kept by the server, from the source:
`TOP_K = 5`. -/
def TOP_K : ℕ := 5

/-- The dictionary returned by `postprocess_output`: fields `classes`
and `probabilities`. -/
structure Predictions where
  classes : List ℕ
  probabilities : List ℚ
deriving DecidableEq

/-- Embedding of the source function
`postprocess_output(model_output)`:
`top_k_probs, top_k_classes = tf.nn.top_k(model_output, k=TOP_K)` and
return `{'classes': top_k_classes, 'probabilities': top_k_probs}`. -/
def postprocess_output (model_output : List ℚ) : Predictions :=
  let r := top_k model_output TOP_K
  { classes := r.2, probabilities := r.1 }

/-- The sorted entry list underlying `top_k`. -/
def sortedEnum (xs : List ℚ) : List Entry :=
  List.insertionSort topKRel (enumPairs xs)

/-- The first `k` entries of the sorted list. -/
def topPairs (xs : List ℚ) (k : ℕ) : List Entry :=
  (sortedEnum xs).take k

/-- Embedding of the model-output vector built by the output unit-test
cell of the source: `np.ones(1001)` with entries 2, 5, 10, 49, 998 set
to 2.5, 3.5, 4, 3, 2, the whole vector divided by its sum
`TOTAL_WEIGHT = 1011`. -/
def testVector : List ℚ :=
  (List.range 1001).map fun i =>
    (if i = 10 then 4 else if i = 5 then 7 / 2 else if i = 49 then 3
     else if i = 2 then 5 / 2 else if i = 998 then 2 else 1) / 1011

/-- The same vector with every entry in normalised `Rat.mk'` form, used
to evaluate the selector by kernel reduction. -/
def testVectorNF : List ℚ :=
  (List.range 1001).map fun i =>
    if i = 10 then Rat.mk' 4 1011 (by decide) (by decide)
    else if i = 5 then Rat.mk' 7 2022 (by decide) (by decide)
    else if i = 49 then Rat.mk' 1 337 (by decide) (by decide)
    else if i = 2 then Rat.mk' 5 2022 (by decide) (by decide)
    else if i = 998 then Rat.mk' 2 1011 (by decide) (by decide)
    else Rat.mk' 1 1011 (by decide) (by decide)

/-- Small sample score vector used to instantiate theorems with
hypotheses on a concrete input. -/
def sampleVec : List ℚ := [1, 3, 2, 5, 4, 0]

/-- Small normalised probability vector (non-negative entries summing to
one) used to instantiate the probability-bound theorem. -/
def sampleNorm : List ℚ :=
  [Rat.mk' 1 2 (by decide) (by decide),
   Rat.mk' 1 4 (by decide) (by decide),
   Rat.mk' 1 8 (by decide) (by decide),
   Rat.mk' 1 16 (by decide) (by decide),
   Rat.mk' 1 16 (by decide) (by decide)]

/-- A serving signature: named input tensors and named output tensors,
as assembled by `predict_signature_def(inputs=..., outputs=...)`. -/
structure SignatureDef where
  inputs : List (String × String)
  outputs : List (String × String)

/-- Embedding of `predict_signature_def`: records the input and output
dictionaries of the exported prediction signature. -/
def predict_signature_def (inputs outputs : List (String × String)) : SignatureDef :=
  ⟨inputs, outputs⟩

/-- Graph-level view of the dictionary literal built by
`postprocess_output`: the output key names paired with the tensors they
expose. -/
def postprocess_output_tensors (top_k_classes top_k_probs : String) :
    List (String × String) :=
  [("classes", top_k_classes), ("probabilities", top_k_probs)]

/-- Embedding of the export cell of the source:
`predict_signature_def(inputs={'images': images}, outputs=predictions)`
where `predictions = postprocess_output(model.output)`. -/
def signature : SignatureDef :=
  predict_signature_def [("images", "images_placeholder")]
    (postprocess_output_tensors "top_k_classes" "top_k_probs")

/-- Expected value of `topPairs testVectorNF TOP_K`: the five heaviest
entries with their indices, in descending order of value. -/
def topEntriesNF : List Entry :=
  [(10, Rat.mk' 4 1011 (by decide) (by decide)),
   (5, Rat.mk' 7 2022 (by decide) (by decide)),
   (49, Rat.mk' 1 337 (by decide) (by decide)),
   (2, Rat.mk' 5 2022 (by decide) (by decide)),
   (998, Rat.mk' 2 1011 (by decide) (by decide))]

theorem classes_eq (xs : List ℚ) :
    (postprocess_output xs).classes = (topPairs xs TOP_K).map Prod.fst := rfl

theorem probabilities_eq (xs : List ℚ) :
    (postprocess_output xs).probabilities = (topPairs xs TOP_K).map Prod.snd := rfl

instance : IsRefl Entry topKRel :=
  ⟨fun a => Or.inr ⟨rfl, le_refl _⟩⟩

instance : IsTotal Entry topKRel := by
  constructor
  intro a b
  rcases lt_trichotomy a.2 b.2 with h | h | h
  · exact Or.inr (Or.inl h)
  · rcases le_total a.1 b.1 with h1 | h1
    · exact Or.inl (Or.inr ⟨h, h1⟩)
    · exact Or.inr (Or.inr ⟨h.symm, h1⟩)
  · exact Or.inl (Or.inl h)

instance : IsTrans Entry topKRel := by
  constructor
  intro a b c hab hbc
  rcases hab with hab | ⟨hab, hab1⟩
  · rcases hbc with hbc | ⟨hbc, _⟩
    · exact Or.inl (hbc.trans hab)
    · exact Or.inl (hbc ▸ hab)
  · rcases hbc with hbc | ⟨hbc, hbc1⟩
    · exact Or.inl (hab ▸ hbc)
    · exact Or.inr ⟨hab.trans hbc, hab1.trans hbc1⟩

theorem sortedEnum_sorted (xs : List ℚ) :
    (sortedEnum xs).Sorted topKRel :=
  List.sorted_insertionSort topKRel (enumPairs xs)

theorem sortedEnum_perm (xs : List ℚ) :
    (sortedEnum xs).Perm (enumPairs xs) :=
  List.perm_insertionSort topKRel (enumPairs xs)

theorem length_enumPairs (xs : List ℚ) :
    (enumPairs xs).length = xs.length := by
  simp [enumPairs]

theorem length_sortedEnum (xs : List ℚ) :
    (sortedEnum xs).length = xs.length := by
  rw [(sortedEnum_perm xs).length_eq, length_enumPairs]

theorem mem_enumPairs {xs : List ℚ} {p : Entry} :
    p ∈ enumPairs xs ↔ p.1 < xs.length ∧ p.2 = xs.getD p.1 0 := by
  unfold enumPairs
  constructor
  · intro hp
    rcases List.mem_iff_getElem.1 hp with ⟨i, hi, hival⟩
    have hi2 : i < xs.length := by simpa using hi
    rw [List.getElem_zip] at hival
    rcases hival with rfl
    refine ⟨by simpa using hi2, ?_⟩
    rw [List.getElem_range]
    rw [List.getD_eq_getElem _ _ (show i < xs.length from hi2)]
  · intro ⟨h1, h2⟩
    refine List.mem_iff_getElem.2 ⟨p.1, by simpa using h1, ?_⟩
    rw [List.getElem_zip]
    refine Prod.ext ?_ ?_
    · simp
    · rw [h2, List.getD_eq_getElem _ _ h1]

theorem mem_sortedEnum {xs : List ℚ} {p : Entry} :
    p ∈ sortedEnum xs ↔ p.1 < xs.length ∧ p.2 = xs.getD p.1 0 := by
  rw [(sortedEnum_perm xs).mem_iff, mem_enumPairs]

theorem topPairs_length (xs : List ℚ) (k : ℕ) :
    (topPairs xs k).length = min k xs.length := by
  simp [topPairs, length_sortedEnum]

theorem topPairs_sorted (xs : List ℚ) (k : ℕ) :
    (topPairs xs k).Sorted topKRel :=
  (sortedEnum_sorted xs).sublist (List.take_sublist k (sortedEnum xs))

theorem topPairs_subset (xs : List ℚ) (k : ℕ) {p : Entry}
    (hp : p ∈ topPairs xs k) : p ∈ sortedEnum xs :=
  List.mem_of_mem_take hp

theorem topKRel_snd {a b : Entry} (h : topKRel a b) : b.2 ≤ a.2 := by
  rcases h with h | ⟨h, _⟩
  · exact h.le
  · exact h.ge

theorem classes_length (xs : List ℚ) :
    (postprocess_output xs).classes.length = min TOP_K xs.length := by
  rw [classes_eq, List.length_map, topPairs_length]

theorem probabilities_length (xs : List ℚ) :
    (postprocess_output xs).probabilities.length = min TOP_K xs.length := by
  rw [probabilities_eq, List.length_map, topPairs_length]

theorem classes_getD (xs : List ℚ) (i : ℕ)
    (h : i < (topPairs xs TOP_K).length) :
    (postprocess_output xs).classes.getD i 0 =
      ((topPairs xs TOP_K).get ⟨i, h⟩).1 := by
  rw [classes_eq]
  rw [List.getD_eq_getElem _ _ (by simpa using h)]
  simp

theorem probabilities_getD (xs : List ℚ) (i : ℕ)
    (h : i < (topPairs xs TOP_K).length) :
    (postprocess_output xs).probabilities.getD i 0 =
      ((topPairs xs TOP_K).get ⟨i, h⟩).2 := by
  rw [probabilities_eq]
  rw [List.getD_eq_getElem _ _ (by simpa using h)]
  simp

theorem probabilities_pairwise_ge (xs : List ℚ) :
    (postprocess_output xs).probabilities.Pairwise (fun a b : ℚ => b ≤ a) := by
  rw [probabilities_eq, List.pairwise_map]
  exact (topPairs_sorted xs TOP_K).imp topKRel_snd

/-- C1: for every input vector the probabilities sequence returned by the
top-k selector is sorted in non-increasing order: for every valid
position `i`, `probabilities[i+1] ≤ probabilities[i]`. -/
theorem top_k_probabilities_sorted (xs : List ℚ) (i : ℕ)
    (h : i + 1 < (postprocess_output xs).probabilities.length) :
    (postprocess_output xs).probabilities.getD (i + 1) 0 ≤
      (postprocess_output xs).probabilities.getD i 0 := by
  have hp := probabilities_pairwise_ge xs
  rw [List.pairwise_iff_get] at hp
  have hi : i < (postprocess_output xs).probabilities.length :=
    Nat.lt_of_succ_lt h
  have := hp ⟨i, hi⟩ ⟨i + 1, h⟩ (by exact Nat.lt_succ_self i)
  rw [List.getD_eq_getElem _ _ h, List.getD_eq_getElem _ _ hi]
  simpa using this

/-- Witness for C1 on the concrete vector `sampleVec`. -/
theorem top_k_probabilities_sorted_witness :
    0 + 1 < (postprocess_output sampleVec).probabilities.length ∧
      (postprocess_output sampleVec).probabilities.getD (0 + 1) 0 ≤
        (postprocess_output sampleVec).probabilities.getD 0 0 :=
  ⟨by decide, top_k_probabilities_sorted sampleVec 0 (by decide)⟩

/-- C4: when the input vector has length at least `k = TOP_K`, both
returned sequences have length exactly `TOP_K`. -/
theorem top_k_output_length (xs : List ℚ) (hk : TOP_K ≤ xs.length) :
    (postprocess_output xs).classes.length = TOP_K ∧
      (postprocess_output xs).probabilities.length = TOP_K := by
  rw [classes_length, probabilities_length]
  omega

/-- Witness for C4 on the concrete vector `sampleVec`. -/
theorem top_k_output_length_witness :
    TOP_K ≤ sampleVec.length ∧
      (postprocess_output sampleVec).classes.length = TOP_K ∧
        (postprocess_output sampleVec).probabilities.length = TOP_K :=
  ⟨by decide, top_k_output_length sampleVec (by decide)⟩

/-- C7: the selector is deterministic — two calls on the same input
vector return the same classes and the same probabilities. -/
theorem postprocess_output_deterministic (xs ys : List ℚ) (h : xs = ys) :
    (postprocess_output xs).classes = (postprocess_output ys).classes ∧
      (postprocess_output xs).probabilities = (postprocess_output ys).probabilities := by
  cases h
  exact ⟨rfl, rfl⟩

/-- Witness for C7 on the concrete vector `sampleVec`. -/
theorem postprocess_output_deterministic_witness :
    (postprocess_output sampleVec).classes = (postprocess_output sampleVec).classes ∧
      (postprocess_output sampleVec).probabilities = (postprocess_output sampleVec).probabilities :=
  postprocess_output_deterministic sampleVec sampleVec rfl

/-- C8: the exported prediction signature exposes exactly the input key
`images`, and exactly the output keys `classes` and `probabilities`; the
dictionary built by the postprocessing step has exactly those two keys
in every instantiation. -/
theorem signature_keys :
    signature.inputs.map Prod.fst = ["images"] ∧
      signature.outputs.map Prod.fst = ["classes", "probabilities"] ∧
        ∀ c p : String,
          (postprocess_output_tensors c p).map Prod.fst = ["classes", "probabilities"] :=
  ⟨rfl, rfl, fun _ _ => rfl⟩

/-- C2: every returned class is a 0-based in-range index into the input
vector, and the input value at that index is the corresponding returned
probability. -/
theorem top_k_classes_index_correct (xs : List ℚ) (i : ℕ)
    (h : i < (postprocess_output xs).classes.length) :
    (postprocess_output xs).classes.getD i 0 < xs.length ∧
      xs.getD ((postprocess_output xs).classes.getD i 0) 0 =
        (postprocess_output xs).probabilities.getD i 0 := by
  have ht : i < (topPairs xs TOP_K).length := by
    rw [classes_length] at h
    rw [topPairs_length]
    exact h
  have hmem : (topPairs xs TOP_K).get ⟨i, ht⟩ ∈ sortedEnum xs :=
    topPairs_subset xs TOP_K (List.get_mem _ _ _)
  have hchar := mem_sortedEnum.1 hmem
  rw [classes_getD xs i ht, probabilities_getD xs i ht]
  exact ⟨hchar.1, hchar.2.symm⟩

/-- Witness for C2 on the concrete vector `sampleVec`. -/
theorem top_k_classes_index_correct_witness :
    0 < (postprocess_output sampleVec).classes.length ∧
      ((postprocess_output sampleVec).classes.getD 0 0 < sampleVec.length ∧
        sampleVec.getD ((postprocess_output sampleVec).classes.getD 0 0) 0 =
          (postprocess_output sampleVec).probabilities.getD 0 0) :=
  ⟨by decide, top_k_classes_index_correct sampleVec 0 (by decide)⟩

theorem enumPairs_map_fst (xs : List ℚ) :
    (enumPairs xs).map Prod.fst = List.range xs.length := by
  unfold enumPairs
  exact List.map_fst_zip _ _ (by simp)

theorem topPairs_map_fst_nodup (xs : List ℚ) (k : ℕ) :
    ((topPairs xs k).map Prod.fst).Nodup := by
  have hperm : List.Perm ((sortedEnum xs).map Prod.fst) ((enumPairs xs).map Prod.fst) :=
    (sortedEnum_perm xs).map Prod.fst
  have hnd : ((sortedEnum xs).map Prod.fst).Nodup := by
    rw [hperm.nodup_iff, enumPairs_map_fst]
    exact List.nodup_range _
  exact List.Nodup.sublist ((List.take_sublist k (sortedEnum xs)).map Prod.fst) hnd

/-- C9: the returned class indices are pairwise distinct — no input
position is reported more than once. -/
theorem top_k_classes_nodup (xs : List ℚ) (hk : TOP_K ≤ xs.length) :
    (postprocess_output xs).classes.Nodup := by
  rw [classes_eq]
  exact topPairs_map_fst_nodup xs TOP_K

/-- Witness for C9 on the concrete vector `sampleVec`. -/
theorem top_k_classes_nodup_witness :
    TOP_K ≤ sampleVec.length ∧ (postprocess_output sampleVec).classes.Nodup :=
  ⟨by decide, top_k_classes_nodup sampleVec (by decide)⟩

/-- C10: ties are broken by position — between two output slots the
earlier one has either a strictly larger probability or an equal
probability and a strictly smaller class index, so the output order is
the one obtained by sorting on value descending then index ascending. -/
theorem top_k_tie_break_by_index (xs : List ℚ) (i j : ℕ) (hij : i < j)
    (hj : j < (postprocess_output xs).classes.length) :
    (postprocess_output xs).probabilities.getD j 0 <
        (postprocess_output xs).probabilities.getD i 0 ∨
      ((postprocess_output xs).probabilities.getD i 0 =
          (postprocess_output xs).probabilities.getD j 0 ∧
        (postprocess_output xs).classes.getD i 0 <
          (postprocess_output xs).classes.getD j 0) := by
  have htj : j < (topPairs xs TOP_K).length := by
    rw [classes_length] at hj
    rw [topPairs_length]
    exact hj
  have hti : i < (topPairs xs TOP_K).length := Nat.lt_trans hij htj
  have hrel := (topPairs_sorted xs TOP_K).rel_get_of_lt
    (show (⟨i, hti⟩ : Fin _) < ⟨j, htj⟩ from hij)
  rw [classes_getD xs i hti, classes_getD xs j htj,
    probabilities_getD xs i hti, probabilities_getD xs j htj]
  rcases hrel with hlt | ⟨heq, hle⟩
  · exact Or.inl hlt
  · refine Or.inr ⟨heq, lt_of_le_of_ne hle ?_⟩
    intro hfst
    have hnd := topPairs_map_fst_nodup xs TOP_K
    rw [List.nodup_iff_injective_get] at hnd
    have hgets : ((topPairs xs TOP_K).map Prod.fst).get ⟨i, by simpa using hti⟩ =
        ((topPairs xs TOP_K).map Prod.fst).get ⟨j, by simpa using htj⟩ := by
      simp only [List.get_eq_getElem, List.getElem_map]
      exact hfst
    have := hnd hgets
    simp only [Fin.mk.injEq] at this
    omega

/-- Witness for C10 on the concrete vector `sampleVec`. -/
theorem top_k_tie_break_by_index_witness :
    0 < 1 ∧ 1 < (postprocess_output sampleVec).classes.length ∧
      ((postprocess_output sampleVec).probabilities.getD 1 0 <
          (postprocess_output sampleVec).probabilities.getD 0 0 ∨
        ((postprocess_output sampleVec).probabilities.getD 0 0 =
            (postprocess_output sampleVec).probabilities.getD 1 0 ∧
          (postprocess_output sampleVec).classes.getD 0 0 <
            (postprocess_output sampleVec).classes.getD 1 0)) :=
  ⟨by decide, by decide, top_k_tie_break_by_index sampleVec 0 1 (by decide) (by decide)⟩

/-- C3: every input value whose position is not among the returned
classes is at most the smallest returned probability, so the selector
keeps the `TOP_K` largest values. -/
theorem top_k_selects_largest (xs : List ℚ) (hk : TOP_K ≤ xs.length)
    (j : ℕ) (hj : j < xs.length)
    (hnot : j ∉ (postprocess_output xs).classes) :
    xs.getD j 0 ≤ (postprocess_output xs).probabilities.getD (TOP_K - 1) 0 := by
  have h5 : TOP_K = 5 := rfl
  have hlen : (topPairs xs TOP_K).length = TOP_K := by
    rw [topPairs_length]
    omega
  have hk1 : TOP_K - 1 < (topPairs xs TOP_K).length := by omega
  rw [probabilities_getD xs (TOP_K - 1) hk1]
  have hxmem : (topPairs xs TOP_K).get ⟨TOP_K - 1, hk1⟩ ∈ (sortedEnum xs).take TOP_K := by
    have := List.get_mem (topPairs xs TOP_K) (TOP_K - 1) hk1
    simpa [topPairs] using this
  have hqmem : (j, xs.getD j 0) ∈ sortedEnum xs := mem_sortedEnum.2 ⟨hj, rfl⟩
  have hqdrop : (j, xs.getD j 0) ∈ (sortedEnum xs).drop TOP_K := by
    have hnt : (j, xs.getD j 0) ∉ (sortedEnum xs).take TOP_K := by
      intro hmem2
      apply hnot
      rw [classes_eq]
      exact List.mem_map_of_mem Prod.fst (by simpa [topPairs] using hmem2)
    have hsplit : (j, xs.getD j 0) ∈ (sortedEnum xs).take TOP_K ++ (sortedEnum xs).drop TOP_K := by
      rw [List.take_append_drop]
      exact hqmem
    rcases List.mem_append.1 hsplit with h1 | h1
    · exact absurd h1 hnt
    · exact h1
  exact topKRel_snd ((sortedEnum_sorted xs).rel_of_mem_take_of_mem_drop hxmem hqdrop)

/-- Witness for C3 on the concrete vector `sampleVec`. -/
theorem top_k_selects_largest_witness :
    TOP_K ≤ sampleVec.length ∧ 5 < sampleVec.length ∧
      5 ∉ (postprocess_output sampleVec).classes ∧
      sampleVec.getD 5 0 ≤ (postprocess_output sampleVec).probabilities.getD (TOP_K - 1) 0 :=
  ⟨by decide, by decide, by decide,
    top_k_selects_largest sampleVec (by decide) 5 (by decide) (by decide)⟩

/-- C6: for a normalised probability vector (non-negative entries that
sum to one) of length at least `TOP_K`, the largest returned probability
is at most 1 and at least `1 / N`. -/
theorem top_k_max_probability_bounds (xs : List ℚ) (hk : TOP_K ≤ xs.length)
    (hpos : ∀ x ∈ xs, 0 ≤ x) (hsum : xs.sum = 1) :
    (∀ y ∈ (postprocess_output xs).probabilities,
        y ≤ (postprocess_output xs).probabilities.getD 0 0) ∧
      (postprocess_output xs).probabilities.getD 0 0 ≤ 1 ∧
        1 / (xs.length : ℚ) ≤ (postprocess_output xs).probabilities.getD 0 0 := by
  have h5 : TOP_K = 5 := rfl
  have hlen0 : 0 < (topPairs xs TOP_K).length := by
    rw [topPairs_length]
    omega
  have hs0 : 0 < (sortedEnum xs).length := by
    rw [length_sortedEnum]
    omega
  rw [probabilities_getD xs 0 hlen0]
  have hd_eq : (topPairs xs TOP_K).get ⟨0, hlen0⟩ = (sortedEnum xs).get ⟨0, hs0⟩ := by
    simp [topPairs]
  rw [hd_eq]
  have hd_max : ∀ q ∈ sortedEnum xs, q.2 ≤ ((sortedEnum xs).get ⟨0, hs0⟩).2 := by
    intro q hq
    rcases List.mem_iff_get.1 hq with ⟨m, rfl⟩
    exact topKRel_snd ((sortedEnum_sorted xs).rel_get_of_le
      (show (⟨0, hs0⟩ : Fin _) ≤ m from Fin.mk_le_of_le_val (Nat.zero_le _)))
  have hdmem : (sortedEnum xs).get ⟨0, hs0⟩ ∈ sortedEnum xs := List.get_mem _ _ _
  have hchar := mem_sortedEnum.1 hdmem
  refine ⟨?_, ?_, ?_⟩
  · intro y hy
    rw [probabilities_eq] at hy
    rcases List.mem_map.1 hy with ⟨q, hq, rfl⟩
    exact hd_max q (topPairs_subset xs TOP_K hq)
  · have hd2mem : ((sortedEnum xs).get ⟨0, hs0⟩).2 ∈ xs := by
      rw [hchar.2, List.getD_eq_getElem _ _ hchar.1]
      exact List.getElem_mem _
    have := List.single_le_sum hpos _ hd2mem
    rwa [hsum] at this
  · have hle : ∀ x ∈ xs, x ≤ ((sortedEnum xs).get ⟨0, hs0⟩).2 := by
      intro x hx
      rcases List.mem_iff_get.1 hx with ⟨n, rfl⟩
      refine hd_max (n.1, xs.get n) (mem_sortedEnum.2 ⟨n.2, ?_⟩)
      rw [List.getD_eq_getElem _ _ n.2]
      simp
    have hsumle := List.sum_le_card_nsmul xs _ hle
    rw [hsum, nsmul_eq_mul] at hsumle
    have hn : (0 : ℚ) < (xs.length : ℚ) := by
      have : 0 < xs.length := by omega
      exact_mod_cast this
    rw [div_le_iff₀ hn]
    linarith

/-- Witness for C6 on the concrete normalised vector `sampleNorm`. -/
theorem top_k_max_probability_bounds_witness :
    (∀ x ∈ sampleNorm, (0 : ℚ) ≤ x) ∧ sampleNorm.sum = 1 ∧
      1 / (sampleNorm.length : ℚ) ≤ (postprocess_output sampleNorm).probabilities.getD 0 0 :=
  ⟨by decide, by with_unfolding_all decide,
    (top_k_max_probability_bounds sampleNorm (by decide) (by decide)
      (by with_unfolding_all decide)).2.2⟩

set_option maxRecDepth 100000 in
theorem testVector_eq_NF : testVector = testVectorNF := by
  unfold testVector testVectorNF
  apply List.map_congr_left
  intro i _
  split_ifs <;> with_unfolding_all decide

set_option maxRecDepth 1000000 in
set_option maxHeartbeats 8000000 in
theorem topPairs_testVectorNF : topPairs testVectorNF TOP_K = topEntriesNF := by
  decide

/-- C5: on the unit-test vector of length 1001 (all entries 1 except
indices 10, 5, 49, 2, 998 holding 4, 3.5, 3, 2.5, 2, normalised by the
total weight 1011) the selector returns classes `[10, 5, 49, 2, 998]`
with strictly descending probabilities. -/
theorem top_k_test_vector :
    (postprocess_output testVector).classes = [10, 5, 49, 2, 998] ∧
      (postprocess_output testVector).probabilities.Pairwise (fun a b : ℚ => b < a) := by
  rw [testVector_eq_NF, classes_eq, probabilities_eq, topPairs_testVectorNF]
  exact ⟨rfl, by decide⟩

end TfServing
